import Mathlib

/-!
# parallel_accumulate: a shallow embedding of `include/parallel_accumulate.h`

The header defines two things:

* `sequential_fold` (lines 15-18): `result = std::accumulate(first, last, init, func)`;
* `parallel_accumulate` (lines 20-60): the length test, the choice of the number of
  threads, the block size, the loop that launches one thread per block, the joins and
  the final `std::accumulate` over the partial results.

Modelling conventions.

* A range `[first, last)` is a `List T`; an iterator into it is an offset (`Nat`) from
  `first`; `std::distance(first, last)` is the length of the list.
* `T_elem` and `T_accum` are instantiated with one type `T`, so the implicit conversions
  between them are identities.
* `std::accumulate(first, last, init, op)` performs `acc = op(acc, *it)` for every
  element in order: the running value is the FIRST argument of `op`, the element the
  second. That is `List.foldl`.
* `std::thread::hardware_concurrency()` is an input of the model (`hw`).
* The template parameter `Container` is used nowhere in either body.
* `length` is the distance of an in-memory range and every other quantity is bounded by
  `length + 24`, so no `unsigned long` operation wraps; arithmetic is done in `Nat`.
* Thread `i` only writes `results[i]` and every thread is joined before line 59, so after
  the joins `results` holds the block folds in index order. `parallel_accumulate` below
  is that sequential reading; `join_all` further down replays the writes in an arbitrary
  completion order.
-/

namespace ParallelAccumulate

/-! ## Source-level definitions -/

/-- Line 23: `std::distance(first, last)` of the range held in a list. -/
def distance {T : Type} (s : List T) : Nat := s.length

/-- The sub-range `[first + a, first + b)` of the range `s`. -/
def slice {T : Type} (s : List T) (a b : Nat) : List T := (s.drop a).take (b - a)

/-- The call `std::accumulate(first, last, init, func)`: `acc = func(acc, x)` for each
element `x` in order. -/
def accumulate {T : Type} (s : List T) (init : T) (func : T → T → T) : T :=
  s.foldl func init

/-- Lines 15-18: the value `sequential_fold` stores into `result`. -/
def sequential_fold {T : Type} (block : List T) (init : T) (func : T → T → T) : T :=
  accumulate block init func

/-- Line 26. -/
def min_block_size : Nat := 25

/-- Line 31: `(length + min_block_size - 1) / min_block_size`. -/
def max_threads (length : Nat) : Nat := (length + min_block_size - 1) / min_block_size

/-- Line 42: `std::min(hardware_threads == 0 ? 2 : hardware_threads, max_threads)`. -/
def num_threads (hw length : Nat) : Nat :=
  min (if hw = 0 then 2 else hw) (max_threads length)

/-- Line 43: `length / num_threads`. -/
def block_size (hw length : Nat) : Nat := length / num_threads hw length

/-- Modelled from the spec: the seed argument of the block fold. The launch at line 52
passes `it, it + block_size, func, std::ref(results[i])` to `sequential_fold`, whose
parameters are `first, last, init, func, result`: the `init` argument is absent from the
call. Section 4.2 step 7 of the specification says every block is seeded with the same
`init` that seeds the final merge. -/
def block_seed {T : Type} (init : T) : T := init

/-- Lines 49-54: the launch loop, `n` iterations left, cursor `it`. Each iteration hands
the sub-range `[it, it + block_size)` to a thread and advances `it` by `block_size`.
The result lists the `(it, it + block_size)` pairs in launch order. -/
def launch_ranges (bsize : Nat) : Nat → Nat → List (Nat × Nat)
  | 0, _ => []
  | n + 1, it => (it, it + bsize) :: launch_ranges bsize n (it + bsize)

/-- The partition plan of a call: nothing is launched for an empty range (line 25),
otherwise `num_threads` sub-ranges of `block_size` offsets each, starting at `first`. -/
def partition_plan {T : Type} (hw : Nat) (s : List T) : List (Nat × Nat) :=
  let length := distance s
  if length = 0 then []
  else launch_ranges (block_size hw length) (num_threads hw length) 0

/-- The blocks handed to the threads, in index order. -/
def blocks {T : Type} (hw : Nat) (s : List T) : List (List T) :=
  (partition_plan hw s).map (fun r => slice s r.1 r.2)

/-- Lines 47-57: the partial results once every thread has been joined: slot `i` holds
the fold of block `i`. -/
def partial_results {T : Type} (hw : Nat) (s : List T) (init : T) (func : T → T → T) :
    List T :=
  (blocks hw s).map (fun b => sequential_fold b (block_seed init) func)

/-- Lines 20-60. -/
def parallel_accumulate {T : Type} (hw : Nat) (s : List T) (init : T)
    (func : T → T → T) : T :=
  let length := distance s
  if length = 0 then init
  else accumulate (partial_results hw s init func) init func

/-! ## The same call with a combining function that may raise

`func` returns `Except E T`: `.error e` is `func` throwing `e`. Nothing in the header
catches an exception, so one raised by the final `std::accumulate` (line 59, run by the
caller's thread) leaves `parallel_accumulate` and reaches the caller, while one raised
inside a thread's callable (line 52) leaves that callable uncaught, for which
`std::thread` calls `std::terminate`. The caller is blocked in `join` (lines 56-57) until
every thread has finished, so it can neither return nor raise before that happens. -/

/-- How a call of `parallel_accumulate` ends. -/
inductive Outcome (E T : Type) where
  /-- The call returns a value. -/
  | value (v : T)
  /-- The call exits with an exception that reaches the caller. -/
  | raised (e : E)
  /-- An exception left a thread callable uncaught: `std::terminate`. -/
  | terminated
  deriving DecidableEq

/-- The call `std::accumulate(first, last, init, func)` with a `func` that may raise:
it stops at the first exception. -/
def accumulate_exc {E T : Type} (s : List T) (init : T) (func : T → T → Except E T) :
    Except E T :=
  s.foldlM func init

/-- Lines 15-18 with a `func` that may raise. -/
def sequential_fold_exc {E T : Type} (block : List T) (init : T)
    (func : T → T → Except E T) : Except E T :=
  accumulate_exc block init func

/-- The `results` vector after the joins, when no thread callable raised. -/
def collect_results {E T : Type} : List (Except E T) → Option (List T)
  | [] => some []
  | Except.ok v :: rest => (collect_results rest).map (fun vs => v :: vs)
  | Except.error _ :: _ => none

/-- Lines 20-60 with a `func` that may raise. -/
def parallel_accumulate_exc {E T : Type} (hw : Nat) (s : List T) (init : T)
    (func : T → T → Except E T) : Outcome E T :=
  let length := distance s
  if length = 0 then Outcome.value init
  else
    match collect_results
        ((blocks hw s).map (fun b => sequential_fold_exc b (block_seed init) func)) with
    | none => Outcome.terminated
    | some results =>
      match accumulate_exc results init func with
      | Except.ok v => Outcome.value v
      | Except.error e => Outcome.raised e

/-! ## The parallel phase under an arbitrary completion order -/

/-- Line 52 as executed by thread `i`: `results[i]` receives the fold of the sub-range
the thread was launched with. -/
def thread_write {T : Type} (s : List T) (init : T) (func : T → T → T)
    (plan : List (Nat × Nat)) (results : List T) (i : Nat) : List T :=
  match plan[i]? with
  | some r => results.set i (sequential_fold (slice s r.1 r.2) (block_seed init) func)
  | none => results

/-- Lines 47-57 for a non-empty range: `results` starts as `num_threads`
value-initialised slots (`dflt`), and the threads complete in the order `order`. -/
def join_all {T : Type} (hw : Nat) (s : List T) (init : T) (func : T → T → T)
    (dflt : T) (order : List Nat) : List T :=
  order.foldl (thread_write s init func (partition_plan hw s))
    (List.replicate (num_threads hw (distance s)) dflt)

/-- Lines 20-60 with the threads completing in the order `order`. -/
def parallel_accumulate_under {T : Type} (order : List Nat) (dflt : T) (hw : Nat)
    (s : List T) (init : T) (func : T → T → T) : T :=
  let length := distance s
  if length = 0 then init
  else accumulate (join_all hw s init func dflt order) init func

/-! ## The worker count in the words of the specification (section 4.2, steps 3-5) -/

/-- Step 4: a hint of 0 is replaced by the default 2. -/
def spec_hardware_hint (h : Nat) : Nat := if h = 0 then 2 else h

/-- Step 3: `ceil(length / min_block_size)` with the design default 25, as a ceiling of
a rational quotient. -/
def spec_max_useful_workers (length : Nat) : Nat := ⌈(length : ℚ) / 25⌉₊

/-- Step 5: `min(hardware_hint, max_useful_workers)`. -/
def spec_num_workers (h length : Nat) : Nat :=
  min (spec_hardware_hint h) (spec_max_useful_workers length)

/-! ## A concrete combining function that raises -/

/-- Addition that raises the error value 7 when the element is 0. -/
def raise_on_zero (a x : Nat) : Except Nat Nat :=
  if x = 0 then Except.error 7 else Except.ok (a + x)

/-! ## Auxiliary facts about the sizing arithmetic and the launch loop -/

theorem max_threads_pos {length : Nat} (h : 0 < length) : 1 ≤ max_threads length := by
  unfold max_threads min_block_size
  omega

theorem max_threads_small {length : Nat} (h1 : 0 < length) (h2 : length < 25) :
    max_threads length = 1 := by
  unfold max_threads min_block_size
  omega

theorem num_threads_pos (hw : Nat) {length : Nat} (h : 0 < length) :
    1 ≤ num_threads hw length := by
  have hm := max_threads_pos h
  unfold num_threads
  split <;> omega

theorem num_threads_small (hw : Nat) {length : Nat} (h1 : 0 < length) (h2 : length < 25) :
    num_threads hw length = 1 := by
  have hm := max_threads_small h1 h2
  unfold num_threads
  split <;> omega

theorem covered_le (hw length : Nat) :
    num_threads hw length * block_size hw length ≤ length := by
  unfold block_size
  rw [Nat.mul_comm]
  exact Nat.div_mul_le_self _ _

theorem covered_of_dvd {hw length : Nat} (h : num_threads hw length ∣ length) :
    num_threads hw length * block_size hw length = length := by
  unfold block_size
  exact Nat.mul_div_cancel' h

theorem slice_eq {T : Type} (s : List T) (it b : Nat) :
    slice s it (it + b) = (s.drop it).take b := by
  unfold slice
  rw [Nat.add_sub_cancel_left]

theorem length_launch_ranges (b n it : Nat) : (launch_ranges b n it).length = n := by
  induction n generalizing it with
  | zero => rfl
  | succ k ih => simp [launch_ranges, ih]

theorem launch_ranges_getElem? (b n it i : Nat) (hi : i < n) :
    (launch_ranges b n it)[i]? = some (it + i * b, it + (i + 1) * b) := by
  induction n generalizing it i with
  | zero => omega
  | succ k ih =>
    cases i with
    | zero => simp [launch_ranges]
    | succ j =>
      simp only [launch_ranges, List.getElem?_cons_succ]
      rw [ih (it + b) j (by omega)]
      congr 2 <;> ring

theorem mem_launch_ranges {b n it : Nat} {r : Nat × Nat} (hr : r ∈ launch_ranges b n it) :
    ∃ i, i < n ∧ r = (it + i * b, it + (i + 1) * b) := by
  induction n generalizing it with
  | zero => simp [launch_ranges] at hr
  | succ k ih =>
    simp only [launch_ranges, List.mem_cons] at hr
    rcases hr with rfl | hr
    · exact ⟨0, by omega, by simp⟩
    · obtain ⟨i, hi, rfl⟩ := ih hr
      exact ⟨i + 1, by omega, by congr 1 <;> ring⟩

theorem flatten_launch {T : Type} (s : List T) (b n it : Nat) :
    ((launch_ranges b n it).map (fun r => slice s r.1 r.2)).flatten
      = (s.drop it).take (n * b) := by
  induction n generalizing it with
  | zero => simp [launch_ranges]
  | succ k ih =>
    simp only [launch_ranges, List.map_cons, List.flatten_cons]
    rw [ih (it + b), slice_eq, Nat.succ_mul, Nat.add_comm (k * b) b, List.take_add,
      List.drop_drop]

theorem partition_plan_of_pos {T : Type} (hw : Nat) (s : List T) (h : 0 < s.length) :
    partition_plan hw s
      = launch_ranges (block_size hw s.length) (num_threads hw s.length) 0 := by
  unfold partition_plan distance
  simp only [if_neg (Nat.pos_iff_ne_zero.mp h)]

theorem partition_plan_nil {T : Type} (hw : Nat) : partition_plan hw ([] : List T) = [] := by
  simp [partition_plan, distance]

theorem flatten_blocks {T : Type} (hw : Nat) (s : List T) :
    (blocks hw s).flatten = s.take (num_threads hw s.length * block_size hw s.length) := by
  rcases Nat.eq_zero_or_pos s.length with h | h
  · have hs : s = [] := List.length_eq_zero.mp h
    subst hs
    simp [blocks, partition_plan_nil]
  · unfold blocks
    rw [partition_plan_of_pos hw s h, flatten_launch]
    simp

theorem length_of_mem_blocks {T : Type} (hw : Nat) (s : List T) {b : List T}
    (hb : b ∈ blocks hw s) : b.length = block_size hw s.length := by
  rcases Nat.eq_zero_or_pos s.length with h | h
  · have hs : s = [] := List.length_eq_zero.mp h
    subst hs
    simp [blocks, partition_plan_nil] at hb
  · unfold blocks at hb
    rw [partition_plan_of_pos hw s h] at hb
    obtain ⟨r, hr, rfl⟩ := List.mem_map.mp hb
    obtain ⟨i, hi, rfl⟩ := mem_launch_ranges hr
    have hc := covered_le hw s.length
    have hle : (i + 1) * block_size hw s.length
        ≤ num_threads hw s.length * block_size hw s.length :=
      Nat.mul_le_mul_right _ hi
    simp only [slice, List.length_take, List.length_drop]
    have e : (i + 1) * block_size hw s.length
        = i * block_size hw s.length + block_size hw s.length := by ring
    omega

end ParallelAccumulate

namespace ParallelAccumulate

/-! ## Further auxiliary facts -/

theorem max_threads_eq_ceil (length : Nat) :
    max_threads length = spec_max_useful_workers length := by
  unfold spec_max_useful_workers
  rcases Nat.eq_zero_or_pos length with h | h
  · subst h
    simp [max_threads, min_block_size]
  · have hk := max_threads_pos h
    symm
    rw [Nat.ceil_eq_iff (by omega)]
    have h1 : 25 * (max_threads length - 1) < length := by
      unfold max_threads min_block_size at *
      omega
    have h2 : length ≤ 25 * max_threads length := by
      unfold max_threads min_block_size at *
      omega
    constructor
    · rw [lt_div_iff₀ (by norm_num)]
      have : ((max_threads length - 1 : ℕ) : ℚ) * 25 = ((25 * (max_threads length - 1) : ℕ) : ℚ) := by
        push_cast
        ring
      rw [this]
      exact_mod_cast h1
    · rw [div_le_iff₀ (by norm_num)]
      have : ((max_threads length : ℕ) : ℚ) * 25 = ((25 * max_threads length : ℕ) : ℚ) := by
        push_cast
        ring
      rw [this]
      exact_mod_cast h2

theorem blocks_small {T : Type} (hw : Nat) (s : List T) (h1 : 1 ≤ s.length)
    (h2 : s.length < 25) : partition_plan hw s = [(0, s.length)] ∧ blocks hw s = [s] := by
  have hn := num_threads_small hw h1 h2
  have hp : partition_plan hw s = [(0, s.length)] := by
    rw [partition_plan_of_pos hw s h1]
    simp [block_size, hn, launch_ranges]
  refine ⟨hp, ?_⟩
  unfold blocks
  rw [hp]
  simp [slice]

theorem parallel_accumulate_of_pos {T : Type} (hw : Nat) (s : List T) (init : T)
    (func : T → T → T) (h : 0 < s.length) :
    parallel_accumulate hw s init func
      = accumulate (partial_results hw s init func) init func := by
  unfold parallel_accumulate distance
  simp only [if_neg (Nat.pos_iff_ne_zero.mp h)]

theorem length_thread_write {T : Type} (s : List T) (init : T) (func : T → T → T)
    (plan : List (Nat × Nat)) (results : List T) (i : Nat) :
    (thread_write s init func plan results i).length = results.length := by
  unfold thread_write
  split <;> simp

theorem length_foldl_thread_write {T : Type} (s : List T) (init : T) (func : T → T → T)
    (plan : List (Nat × Nat)) (order : List Nat) (results : List T) :
    (order.foldl (thread_write s init func plan) results).length = results.length := by
  induction order generalizing results with
  | nil => rfl
  | cons i rest ih => rw [List.foldl_cons, ih, length_thread_write]

theorem foldl_thread_write_other {T : Type} (s : List T) (init : T) (func : T → T → T)
    (plan : List (Nat × Nat)) (order : List Nat) (results : List T) (j : Nat)
    (hj : j ∉ order) :
    (order.foldl (thread_write s init func plan) results)[j]? = results[j]? := by
  induction order generalizing results with
  | nil => rfl
  | cons i rest ih =>
    rw [List.foldl_cons, ih _ (fun h => hj (List.mem_cons_of_mem _ h))]
    have hne : i ≠ j := fun h => hj (h ▸ List.mem_cons_self _ _)
    unfold thread_write
    split
    · rw [List.getElem?_set]
      simp [hne]
    · rfl

theorem foldl_thread_write_slot {T : Type} (s : List T) (init : T) (func : T → T → T)
    (plan : List (Nat × Nat)) (order : List Nat) (results : List T) (j : Nat)
    (r : Nat × Nat) (hnd : order.Nodup) (hj : j ∈ order) (hlen : j < results.length)
    (hr : plan[j]? = some r) :
    (order.foldl (thread_write s init func plan) results)[j]?
      = some (sequential_fold (slice s r.1 r.2) (block_seed init) func) := by
  induction order generalizing results with
  | nil => simp at hj
  | cons i rest ih =>
    rw [List.foldl_cons]
    rw [List.nodup_cons] at hnd
    rcases List.mem_cons.mp hj with rfl | hmem
    · rw [foldl_thread_write_other _ _ _ _ _ _ _ hnd.1]
      unfold thread_write
      rw [hr]
      simp [List.getElem?_set, hlen]
    · exact ih _ hnd.2 hmem (by rw [length_thread_write]; exact hlen)

theorem length_partition_plan {T : Type} (hw : Nat) (s : List T) :
    (partition_plan hw s).length = num_threads hw s.length := by
  rcases Nat.eq_zero_or_pos s.length with h | h
  · have hs : s = [] := List.length_eq_zero.mp h
    subst hs
    simp [partition_plan_nil, num_threads, max_threads, min_block_size]
  · rw [partition_plan_of_pos hw s h, length_launch_ranges]

theorem join_all_eq_partial_results {T : Type} (hw : Nat) (s : List T) (init : T)
    (func : T → T → T) (dflt : T) (order : List Nat)
    (hperm : order.Perm (List.range (num_threads hw s.length))) :
    join_all hw s init func dflt order = partial_results hw s init func := by
  have hplan := length_partition_plan hw s
  apply List.ext_getElem?
  intro j
  unfold join_all distance
  by_cases hj : j < num_threads hw s.length
  · have hjp : j < (partition_plan hw s).length := by omega
    have hr : (partition_plan hw s)[j]? = some ((partition_plan hw s)[j]) :=
      List.getElem?_eq_getElem hjp
    rw [foldl_thread_write_slot s init func _ order _ j _
      (hperm.nodup_iff.mpr (List.nodup_range _))
      (hperm.mem_iff.mpr (List.mem_range.mpr hj)) (by simpa using hj) hr]
    simp [partial_results, blocks, hr]
  · have h1 : (List.foldl (thread_write s init func (partition_plan hw s))
        (List.replicate (num_threads hw s.length) dflt) order).length ≤ j := by
      rw [length_foldl_thread_write]
      simp
      omega
    have h2 : (partial_results hw s init func).length ≤ j := by
      simp [partial_results, blocks, hplan]
      omega
    rw [List.getElem?_eq_none h1, List.getElem?_eq_none h2]

theorem accumulate_exc_pure {E T : Type} (s : List T) (init : T) (g : T → T → T) :
    accumulate_exc s init (fun a x => (Except.ok (g a x) : Except E T))
      = Except.ok (accumulate s init g) := by
  unfold accumulate_exc accumulate
  induction s generalizing init with
  | nil => rfl
  | cons x rest ih =>
    rw [List.foldlM_cons, List.foldl_cons]
    exact ih (g init x)

theorem collect_results_map_ok {E T : Type} (vs : List T) :
    collect_results (vs.map (fun v => (Except.ok v : Except E T))) = some vs := by
  induction vs with
  | nil => rfl
  | cons v rest ih => simp [collect_results, ih]

theorem collect_results_of_error {E T : Type} (l : List (Except E T))
    (h : ∃ x ∈ l, ∃ e, x = Except.error e) : collect_results l = none := by
  induction l with
  | nil => simp at h
  | cons y rest ih =>
    cases y with
    | error e => rfl
    | ok v =>
      obtain ⟨x, hx, e, he⟩ := h
      rcases List.mem_cons.mp hx with rfl | hmem
      · cases he
      · simp [collect_results, ih ⟨x, hmem, e, he⟩]

theorem parallel_accumulate_exc_pure {E T : Type} (hw : Nat) (s : List T) (init : T)
    (g : T → T → T) :
    parallel_accumulate_exc hw s init (fun a x => (Except.ok (g a x) : Except E T))
      = Outcome.value (parallel_accumulate hw s init g) := by
  unfold parallel_accumulate_exc parallel_accumulate
  by_cases h : distance s = 0
  · simp [h]
  · simp only [if_neg h]
    have hmap : (blocks hw s).map
        (fun b => sequential_fold_exc b (block_seed init)
          (fun a x => (Except.ok (g a x) : Except E T)))
        = (partial_results hw s init g).map (fun v => (Except.ok v : Except E T)) := by
      simp [partial_results, sequential_fold_exc, sequential_fold, accumulate_exc_pure]
    rw [hmap, collect_results_map_ok]
    simp only [accumulate_exc_pure]

/-! ## Auxiliary facts about block layout, sums and associative folds -/

theorem num_threads_le_length (hw : Nat) {length : Nat} (h : 0 < length) :
    num_threads hw length ≤ length := by
  have hm : max_threads length ≤ length := by
    unfold max_threads min_block_size
    omega
  unfold num_threads
  exact Nat.le_trans (Nat.min_le_right _ _) hm

theorem block_size_pos (hw : Nat) {length : Nat} (h : 0 < length) :
    1 ≤ block_size hw length := by
  unfold block_size
  exact (Nat.one_le_div_iff (num_threads_pos hw h)).mpr (num_threads_le_length hw h)

theorem covered_add_mod (hw length : Nat) :
    num_threads hw length * block_size hw length + length % num_threads hw length
      = length := by
  unfold block_size
  exact Nat.div_add_mod length (num_threads hw length)

theorem block_end_le (hw length i : Nat) (hi : i < num_threads hw length) :
    (i + 1) * block_size hw length ≤ length :=
  Nat.le_trans (Nat.mul_le_mul_right _ hi) (covered_le hw length)

theorem partition_plan_getElem? {T : Type} (hw : Nat) (s : List T) (i : Nat)
    (hi : i < num_threads hw s.length) :
    (partition_plan hw s)[i]?
      = some (i * block_size hw s.length, (i + 1) * block_size hw s.length) := by
  have hpos : 0 < s.length := by
    rcases Nat.eq_zero_or_pos s.length with h | h
    · rw [h] at hi
      simp [num_threads, max_threads, min_block_size] at hi
    · exact h
  rw [partition_plan_of_pos hw s hpos, launch_ranges_getElem? _ _ _ _ hi]
  simp

theorem blocks_getElem? {T : Type} (hw : Nat) (s : List T) (i : Nat)
    (hi : i < num_threads hw s.length) :
    (blocks hw s)[i]?
      = some ((s.drop (i * block_size hw s.length)).take (block_size hw s.length)) := by
  unfold blocks
  rw [List.getElem?_map, partition_plan_getElem? hw s i hi]
  simp only [Option.map_some', slice]
  congr 2
  rw [Nat.add_mul, Nat.one_mul, Nat.add_sub_cancel_left]

theorem blocks_eq_map_range {T : Type} (hw : Nat) (s : List T) :
    blocks hw s = (List.range (num_threads hw s.length)).map
      (fun i => (s.drop (i * block_size hw s.length)).take (block_size hw s.length)) := by
  apply List.ext_getElem?
  intro i
  by_cases hi : i < num_threads hw s.length
  · rw [blocks_getElem? hw s i hi, List.getElem?_map, List.getElem?_range hi]
    rfl
  · have h1 : (blocks hw s).length ≤ i := by
      simp [blocks, length_partition_plan]
      omega
    rw [List.getElem?_eq_none h1, List.getElem?_eq_none (by simpa using hi)]

theorem foldl_add_int (l : List Int) (a : Int) :
    List.foldl (fun acc x => acc + x) a l = a + l.sum := by
  induction l generalizing a with
  | nil => simp
  | cons x rest ih =>
    rw [List.foldl_cons, ih, List.sum_cons]
    ring

theorem sum_map_add_const (bl : List (List Int)) (c : Int) :
    (bl.map (fun b => c + b.sum)).sum = bl.length * c + bl.flatten.sum := by
  induction bl with
  | nil => simp
  | cons b rest ih =>
    simp only [List.map_cons, List.sum_cons, ih, List.length_cons, List.flatten_cons,
      List.sum_append]
    push_cast
    ring

theorem foldl_assoc_shift {T : Type} (f : T → T → T)
    (hassoc : ∀ a b c, f (f a b) c = f a (f b c)) (t : List T) (a x : T) :
    List.foldl f (f a x) t = f a (List.foldl f x t) := by
  induction t generalizing x with
  | nil => rfl
  | cons y rest ih => rw [List.foldl_cons, List.foldl_cons, hassoc, ih]

theorem foldl_from_left_identity {T : Type} (f : T → T → T) (e : T)
    (hassoc : ∀ a b c, f (f a b) c = f a (f b c)) (hid : ∀ x, f e x = x)
    (l : List T) (hl : l ≠ []) (a : T) :
    f a (List.foldl f e l) = List.foldl f a l := by
  cases l with
  | nil => exact absurd rfl hl
  | cons x t => rw [List.foldl_cons, List.foldl_cons, hid, foldl_assoc_shift f hassoc]

theorem foldl_block_folds {T : Type} (f : T → T → T) (e : T)
    (hassoc : ∀ a b c, f (f a b) c = f a (f b c)) (hid : ∀ x, f e x = x)
    (bl : List (List T)) (hne : ∀ b ∈ bl, b ≠ []) (a : T) :
    List.foldl f a (bl.map (fun b => List.foldl f e b)) = List.foldl f a bl.flatten := by
  induction bl generalizing a with
  | nil => rfl
  | cons b rest ih =>
    rw [List.map_cons, List.foldl_cons, List.flatten_cons, List.foldl_append,
      foldl_from_left_identity f e hassoc hid b (hne b (List.mem_cons_self _ _)),
      ih (fun c hc => hne c (List.mem_cons_of_mem _ hc))]

theorem slice_take {T : Type} (s : List T) (a b m : Nat) (hb : b ≤ m) :
    slice (s.take m) a b = slice s a b := by
  unfold slice
  rw [List.drop_take, List.take_take, Nat.min_eq_left (by omega)]

theorem blocks_eq_of_take_eq {T : Type} (hw : Nat) (s1 s2 : List T)
    (hlen : s1.length = s2.length)
    (hagree : s1.take (num_threads hw s1.length * block_size hw s1.length)
      = s2.take (num_threads hw s1.length * block_size hw s1.length)) :
    blocks hw s1 = blocks hw s2 := by
  have hplan : partition_plan hw s1 = partition_plan hw s2 := by
    unfold partition_plan distance
    rw [hlen]
  unfold blocks
  rw [← hplan]
  apply List.map_congr_left
  intro r hr
  have hpos : 0 < s1.length := by
    rcases Nat.eq_zero_or_pos s1.length with h | h
    · have hs : s1 = [] := List.length_eq_zero.mp h
      subst hs
      simp [partition_plan_nil] at hr
    · exact h
  rw [partition_plan_of_pos hw s1 hpos] at hr
  obtain ⟨i, hi, rfl⟩ := mem_launch_ranges hr
  have hle : 0 + (i + 1) * block_size hw s1.length
      ≤ num_threads hw s1.length * block_size hw s1.length := by
    rw [Nat.zero_add]
    exact Nat.mul_le_mul_right _ hi
  show slice s1 _ _ = slice s2 _ _
  rw [← slice_take s1 _ _ _ hle, ← slice_take s2 _ _ _ hle, hagree]

/-! ## The claims -/

/-- C1 (code defect): on 103 ones with hint 4, initial value 0 and addition (associative,
commutative, 0 neutral) the call returns 100 while the sequential left fold of the whole
sequence is 103: the three trailing elements are in no block. -/
theorem parallel_accumulate_misses_tail_of_103_ones :
    (∀ a b c : Nat, (a + b) + c = a + (b + c)) ∧ (∀ a b : Nat, a + b = b + a) ∧
    (∀ a : Nat, 0 + a = a ∧ a + 0 = a) ∧
    List.replicate 103 1 ≠ [] ∧
    parallel_accumulate 4 (List.replicate 103 1) 0 (fun a x => a + x) = 100 ∧
    sequential_fold (List.replicate 103 1) 0 (fun a x => a + x) = 103 := by
  refine ⟨fun a b c => Nat.add_assoc a b c, fun a b => Nat.add_comm a b,
    fun a => ⟨Nat.zero_add a, Nat.add_zero a⟩, by decide, by decide, by decide⟩

/-- C2 (code defect): for the range 0..102 (length 103, not a multiple of the 4 threads
chosen for hint 4) the launched sub-ranges are [0,25), [25,50), [50,75), [75,100): the
last one stops at offset 100, not at `last` = 103, the block lengths sum to 100, and the
blocks together hold 0..99 only. -/
theorem partition_of_103_stops_at_100 :
    num_threads 4 103 = 4 ∧ block_size 4 103 = 25 ∧ ¬ (num_threads 4 103 ∣ 103) ∧
    partition_plan 4 (List.range 103) = [(0, 25), (25, 50), (50, 75), (75, 100)] ∧
    ((blocks 4 (List.range 103)).map List.length).sum = 100 ∧
    (blocks 4 (List.range 103)).flatten = List.range 100 ∧
    (∀ x, x ∈ [100, 101, 102] → x ∈ List.range 103 ∧
      ∀ b ∈ blocks 4 (List.range 103), x ∉ b) := by
  refine ⟨by decide, by decide, by decide, by decide, by decide, by decide, by decide⟩

/-- C3: when the number of threads divides the length, every launched block has exactly
`block_size = length / num_threads` elements and the blocks, concatenated in index
order, are the input sequence itself. -/
theorem blocks_cover_when_divisible {T : Type} (hw : Nat) (s : List T)
    (hdvd : num_threads hw s.length ∣ s.length) :
    (∀ b ∈ blocks hw s, b.length = block_size hw s.length) ∧
    (blocks hw s).flatten = s := by
  refine ⟨fun b hb => length_of_mem_blocks hw s hb, ?_⟩
  rw [flatten_blocks, covered_of_dvd hdvd, List.take_length]

/-- Witness for C3: length 100 with hint 4 (4 threads, blocks of 25). -/
theorem blocks_cover_when_divisible_witness :
    num_threads 4 (List.range 100).length ∣ (List.range 100).length ∧
    ((∀ b ∈ blocks 4 (List.range 100), b.length = block_size 4 (List.range 100).length) ∧
      (blocks 4 (List.range 100)).flatten = List.range 100) :=
  ⟨by decide, blocks_cover_when_divisible 4 (List.range 100) (by decide)⟩

/-- C4: on the empty range the call returns `init` whatever the hint and the combining
function are, nothing is launched (no sub-range, no block, no partial result), and even a
combining function that raises on every call leaves the result `init`: it is never
applied. -/
theorem empty_range_returns_init {T : Type} (hw : Nat) (init : T) (func : T → T → T) :
    parallel_accumulate hw [] init func = init ∧
    partition_plan hw ([] : List T) = [] ∧
    blocks hw ([] : List T) = [] ∧
    partial_results hw [] init func = [] ∧
    (∀ (E : Type) (e : E),
      parallel_accumulate_exc hw [] init (fun _ _ => Except.error e) = Outcome.value init) := by
  refine ⟨rfl, partition_plan_nil hw, ?_, ?_, fun E e => rfl⟩
  · simp [blocks, partition_plan_nil]
  · simp [partial_results, blocks, partition_plan_nil]

/-- C5: for a positive length the number of threads is
`min(h', ceil(length / 25))` with `h' = 2` for hint 0 and `h' = hint` otherwise; it is at
least 1, at most `ceil(length / 25)`, and at most 2 when the hint is 0. -/
theorem num_threads_eq_spec (hw length : Nat) (hpos : 0 < length) :
    num_threads hw length = spec_num_workers hw length ∧
    1 ≤ num_threads hw length ∧
    num_threads hw length ≤ spec_max_useful_workers length ∧
    (hw = 0 → num_threads hw length ≤ 2) := by
  refine ⟨?_, num_threads_pos hw hpos, ?_, ?_⟩
  · unfold num_threads spec_num_workers spec_hardware_hint
    rw [max_threads_eq_ceil]
  · rw [← max_threads_eq_ceil]
    unfold num_threads
    exact Nat.min_le_right _ _
  · intro h0
    unfold num_threads
    rw [if_pos h0]
    exact Nat.min_le_left _ _

/-- Witness for C5: length 103 with hint 0. -/
theorem num_threads_eq_spec_witness :
    0 < 103 ∧
    (num_threads 0 103 = spec_num_workers 0 103 ∧
      1 ≤ num_threads 0 103 ∧
      num_threads 0 103 ≤ spec_max_useful_workers 103 ∧
      ((0 : Nat) = 0 → num_threads 0 103 ≤ 2)) :=
  ⟨by decide, num_threads_eq_spec 0 103 (by decide)⟩

/-- C6: for a range of length n with 1 <= n < 25 and any hint, exactly one sub-range is
launched, it is `[first, last)`, and the single block is the whole range. -/
theorem short_range_single_block {T : Type} (hw : Nat) (s : List T)
    (h1 : 1 ≤ s.length) (h2 : s.length < 25) :
    partition_plan hw s = [(0, s.length)] ∧ blocks hw s = [s] :=
  blocks_small hw s h1 h2

/-- Witness for C6: a range of length 10 with hint 0. -/
theorem short_range_single_block_witness :
    (1 ≤ (List.range 10).length ∧ (List.range 10).length < 25) ∧
    (partition_plan 0 (List.range 10) = [(0, (List.range 10).length)] ∧
      blocks 0 (List.range 10) = [List.range 10]) :=
  ⟨by decide, short_range_single_block 0 (List.range 10) (by decide) (by decide)⟩

/-- C7 as stated fails: for the one-element range [1], initial value 5, addition and
hint 1 the call returns 11, the sequential left fold of the range from 5 is 6. -/
theorem short_range_not_single_fold :
    1 ≤ [1].length ∧ [1].length < 25 ∧
    parallel_accumulate 1 [1] 5 (fun a x => a + x) = 11 ∧
    sequential_fold [1] 5 (fun a x => a + x) = 6 ∧
    parallel_accumulate 1 [1] 5 (fun a x => a + x)
      ≠ sequential_fold [1] 5 (fun a x => a + x) := by
  refine ⟨by decide, by decide, by decide, by decide, by decide⟩

/-- C7 (amended): for a range of length n with 1 <= n < 25, every `init`, `func` and hint,
the call returns `func(init, F)` where `F` is the sequential left fold of the whole range
from `init`; it returns `F` itself whenever `func(init, x) = x` for every `x`. -/
theorem short_range_merge_of_single_fold {T : Type} (hw : Nat) (s : List T) (init : T)
    (func : T → T → T) (h1 : 1 ≤ s.length) (h2 : s.length < 25) :
    parallel_accumulate hw s init func = func init (sequential_fold s init func) ∧
    ((∀ x, func init x = x) →
      parallel_accumulate hw s init func = sequential_fold s init func) := by
  have hval : parallel_accumulate hw s init func
      = func init (sequential_fold s init func) := by
    rw [parallel_accumulate_of_pos hw s init func h1]
    simp [partial_results, (blocks_small hw s h1 h2).2, accumulate, block_seed]
  exact ⟨hval, fun hid => by rw [hval, hid]⟩

/-- Witness for C7 (amended): the range [1, 2, 3] with hint 0, initial value 0 and
addition. -/
theorem short_range_merge_of_single_fold_witness :
    (1 ≤ [1, 2, 3].length ∧ [1, 2, 3].length < 25) ∧
    (parallel_accumulate 0 [1, 2, 3] 0 (fun a x => a + x)
        = (fun a x => a + x) 0 (sequential_fold [1, 2, 3] 0 (fun a x => a + x)) ∧
      ((∀ x, (fun a x => a + x) 0 x = x) →
        parallel_accumulate 0 [1, 2, 3] 0 (fun a x => a + x)
          = sequential_fold [1, 2, 3] 0 (fun a x => a + x))) :=
  ⟨by decide,
    short_range_merge_of_single_fold 0 [1, 2, 3] 0 (fun a x => a + x) (by decide) (by decide)⟩


/-- C8 as stated fails: with hint 1, the range [0] and a combining function that raises
7 on element 0, the fold of the only block raises 7, yet the call neither returns a
value nor exits with an exception that reaches the caller: the process is terminated. -/
theorem worker_exception_not_reported :
    (∃ b ∈ blocks 1 [0], sequential_fold_exc b (block_seed 0) raise_on_zero = Except.error 7) ∧
    parallel_accumulate_exc 1 [0] 0 raise_on_zero = Outcome.terminated ∧
    (∀ e, parallel_accumulate_exc 1 [0] 0 raise_on_zero ≠ Outcome.raised e) := by
  refine ⟨⟨[0], by decide, rfl⟩, by decide, ?_⟩
  intro e h
  have ht : parallel_accumulate_exc 1 [0] 0 raise_on_zero = Outcome.terminated := by decide
  rw [ht] at h
  cases h

/-- C8 (amended): if the combining function raises while some block is folded, the call
ends in `std::terminate` (no value is returned and no exception reaches the caller); if
every block fold succeeds and the final merge raises `e`, the call exits with `e`; if the
combining function never raises, the call returns a value, namely the one the model
without exceptions computes. -/
theorem exceptions_terminate_or_propagate {E T : Type} (hw : Nat) (s : List T) (init : T)
    (func : T → T → Except E T) :
    ((∃ b ∈ blocks hw s, ∃ e,
        sequential_fold_exc b (block_seed init) func = Except.error e) →
      parallel_accumulate_exc hw s init func = Outcome.terminated) ∧
    (∀ (results : List T) (e : E),
      (blocks hw s).map (fun b => sequential_fold_exc b (block_seed init) func)
        = results.map (fun v => Except.ok v) →
      accumulate_exc results init func = Except.error e →
      parallel_accumulate_exc hw s init func = Outcome.raised e) ∧
    ((∀ a x, ∃ v, func a x = Except.ok v) →
      ∃ v, parallel_accumulate_exc hw s init func = Outcome.value v) ∧
    (∀ g : T → T → T, (∀ a x, func a x = Except.ok (g a x)) →
      parallel_accumulate_exc hw s init func
        = Outcome.value (parallel_accumulate hw s init g)) := by
  have hpure : ∀ g : T → T → T, (∀ a x, func a x = Except.ok (g a x)) →
      parallel_accumulate_exc hw s init func
        = Outcome.value (parallel_accumulate hw s init g) := by
    intro g hg
    have hf : func = fun a x => (Except.ok (g a x) : Except E T) := by
      funext a x
      exact hg a x
    rw [hf]
    exact parallel_accumulate_exc_pure hw s init g
  refine ⟨?_, ?_, ?_, hpure⟩
  · rintro ⟨b, hb, e, he⟩
    have hlen : distance s ≠ 0 := by
      intro h0
      have hs : s = [] := List.length_eq_zero.mp h0
      subst hs
      simp [blocks, partition_plan_nil] at hb
    unfold parallel_accumulate_exc
    simp only [if_neg hlen]
    have hnone := collect_results_of_error
      ((blocks hw s).map (fun b => sequential_fold_exc b (block_seed init) func))
      ⟨_, List.mem_map.mpr ⟨b, hb, rfl⟩, e, he⟩
    rw [hnone]
  · intro results e hres hmerge
    have hlen : distance s ≠ 0 := by
      intro h0
      have hs : s = [] := List.length_eq_zero.mp h0
      subst hs
      have hnil : results = [] := by
        simpa [blocks, partition_plan_nil, eq_comm] using hres
      subst hnil
      simp [accumulate_exc] at hmerge
      cases hmerge
    unfold parallel_accumulate_exc
    simp only [if_neg hlen]
    rw [hres, collect_results_map_ok]
    simp only [hmerge]
  · intro hok
    refine ⟨_, hpure (fun a x => match func a x with
      | Except.ok v => v
      | Except.error _ => a) ?_⟩
    intro a x
    obtain ⟨v, hv⟩ := hok a x
    simp only [hv]

/-- Witness for C8 (amended): hint 1 and the combining function that raises 7 on
element 0. On [0] the block fold raises and the call is terminated; on [5], with a
variant that maps a sum of 5 to 0, the block fold gives 0 and the merge raises 7, which
reaches the caller; with plain addition on [1, 2] a value is returned. -/
theorem exceptions_terminate_or_propagate_witness :
    parallel_accumulate_exc 1 [0] 0 raise_on_zero = Outcome.terminated ∧
    parallel_accumulate_exc 1 [5] 0 (fun a x => if a + x = 5 then Except.ok 0 else raise_on_zero a x)
      = Outcome.raised 7 ∧
    parallel_accumulate_exc 1 [1, 2] 0 (fun a x => (Except.ok (a + x) : Except Nat Nat))
      = Outcome.value (parallel_accumulate 1 [1, 2] 0 (fun a x => a + x)) :=
  ⟨(exceptions_terminate_or_propagate 1 [0] 0 raise_on_zero).1 ⟨[0], by decide, 7, rfl⟩,
   (exceptions_terminate_or_propagate 1 [5] 0
      (fun a x => if a + x = 5 then Except.ok 0 else raise_on_zero a x)).2.1 [0] 7 rfl rfl,
   (exceptions_terminate_or_propagate 1 [1, 2] 0
      (fun a x => (Except.ok (a + x) : Except Nat Nat))).2.2.2 (fun a x => a + x)
        (fun _ _ => rfl)⟩

/-- C9: for a fixed hint, two sequences of equal length get the same partition plan (the
same number of sub-ranges with the same boundaries, whatever their elements); whatever
the order in which the threads complete, after the joins slot `i` of `results` holds the
fold of block `i`, so the merge folds the block results in block-index order; and two
runs on the same sequence, initial value and combining function return the same value,
the one `parallel_accumulate` computes. -/
theorem partition_and_merge_deterministic {T : Type} (hw : Nat) (s1 s2 : List T)
    (init dflt : T) (func : T → T → T) (order1 order2 : List Nat)
    (hlen : s1.length = s2.length)
    (h1 : order1.Perm (List.range (num_threads hw s1.length)))
    (h2 : order2.Perm (List.range (num_threads hw s1.length))) :
    partition_plan hw s1 = partition_plan hw s2 ∧
    (blocks hw s1).length = (blocks hw s2).length ∧
    join_all hw s1 init func dflt order1
      = (partition_plan hw s1).map
          (fun r => sequential_fold (slice s1 r.1 r.2) (block_seed init) func) ∧
    parallel_accumulate_under order1 dflt hw s1 init func
      = parallel_accumulate_under order2 dflt hw s1 init func ∧
    parallel_accumulate_under order1 dflt hw s1 init func
      = parallel_accumulate hw s1 init func := by
  have hplan : partition_plan hw s1 = partition_plan hw s2 := by
    unfold partition_plan distance
    rw [hlen]
  have hj1 := join_all_eq_partial_results hw s1 init func dflt order1 h1
  have hj2 := join_all_eq_partial_results hw s1 init func dflt order2 h2
  have hu1 : parallel_accumulate_under order1 dflt hw s1 init func
      = parallel_accumulate hw s1 init func := by
    unfold parallel_accumulate_under parallel_accumulate
    rw [hj1]
  have hu2 : parallel_accumulate_under order2 dflt hw s1 init func
      = parallel_accumulate hw s1 init func := by
    unfold parallel_accumulate_under parallel_accumulate
    rw [hj2]
  refine ⟨hplan, ?_, ?_, hu1.trans hu2.symm, hu1⟩
  · simp [blocks, hplan]
  · rw [hj1]
    simp [partial_results, blocks]

/-- Witness for C9: the ranges 0..102 and 103 copies of 7 with hint 4, the threads
completing in the orders 3, 1, 0, 2 and 0, 1, 2, 3. -/
theorem partition_and_merge_deterministic_witness :
    (List.range 103).length = (List.replicate 103 7).length ∧
    [3, 1, 0, 2].Perm (List.range (num_threads 4 (List.range 103).length)) ∧
    [0, 1, 2, 3].Perm (List.range (num_threads 4 (List.range 103).length)) ∧
    (partition_plan 4 (List.range 103) = partition_plan 4 (List.replicate 103 7) ∧
      (blocks 4 (List.range 103)).length = (blocks 4 (List.replicate 103 7)).length ∧
      join_all 4 (List.range 103) 0 (fun a x => a + x) 0 [3, 1, 0, 2]
        = (partition_plan 4 (List.range 103)).map
            (fun r => sequential_fold (slice (List.range 103) r.1 r.2) (block_seed 0)
              (fun a x => a + x)) ∧
      parallel_accumulate_under [3, 1, 0, 2] 0 4 (List.range 103) 0 (fun a x => a + x)
        = parallel_accumulate_under [0, 1, 2, 3] 0 4 (List.range 103) 0 (fun a x => a + x) ∧
      parallel_accumulate_under [3, 1, 0, 2] 0 4 (List.range 103) 0 (fun a x => a + x)
        = parallel_accumulate 4 (List.range 103) 0 (fun a x => a + x)) :=
  ⟨by decide, by decide, by decide,
    partition_and_merge_deterministic 4 (List.range 103) (List.replicate 103 7) 0 0
      (fun a x => a + x) [3, 1, 0, 2] [0, 1, 2, 3] (by decide) (by decide) (by decide)⟩

/-- C11: for a non-empty input the returned value is the left fold from `init` with
`func` over the partial results in block-index order, partial result `i` being the left
fold from `init` with the same `func` of block `i` alone, the elements at offsets
`[i * block_size, (i + 1) * block_size)`. -/
theorem result_is_merge_of_block_folds {T : Type} (hw : Nat) (s : List T) (init : T)
    (func : T → T → T) (hne : s ≠ []) :
    partial_results hw s init func
      = (List.range (num_threads hw s.length)).map (fun i =>
          List.foldl func init
            ((s.drop (i * block_size hw s.length)).take (block_size hw s.length))) ∧
    partial_results hw s init func = (blocks hw s).map (fun b => List.foldl func init b) ∧
    parallel_accumulate hw s init func
      = List.foldl func init (partial_results hw s init func) := by
  have hpos : 0 < s.length := List.length_pos.mpr hne
  refine ⟨?_, rfl, ?_⟩
  · unfold partial_results
    rw [blocks_eq_map_range, List.map_map]
    rfl
  · rw [parallel_accumulate_of_pos hw s init func hpos]
    rfl

/-- Witness for C11: the range 0..102 with hint 4, initial value 1 and addition. -/
theorem result_is_merge_of_block_folds_witness :
    List.range 103 ≠ [] ∧
    (partial_results 4 (List.range 103) 1 (fun a x => a + x)
        = (List.range (num_threads 4 (List.range 103).length)).map (fun i =>
            List.foldl (fun a x => a + x) 1
              (((List.range 103).drop (i * block_size 4 (List.range 103).length)).take
                (block_size 4 (List.range 103).length))) ∧
      partial_results 4 (List.range 103) 1 (fun a x => a + x)
        = (blocks 4 (List.range 103)).map (fun b => List.foldl (fun a x => a + x) 1 b) ∧
      parallel_accumulate 4 (List.range 103) 1 (fun a x => a + x)
        = List.foldl (fun a x => a + x) 1
            (partial_results 4 (List.range 103) 1 (fun a x => a + x))) :=
  ⟨by decide,
    result_is_merge_of_block_folds 4 (List.range 103) 1 (fun a x => a + x) (by decide)⟩

/-- C12: the partition plan has exactly `num_threads` sub-ranges and as many blocks,
`block_size` is `length / num_threads` rounded down, sub-range `i` is
`[i * block_size, (i + 1) * block_size)` (so the first starts at `first` and each starts
where the previous one ends), block `i` holds exactly the `block_size` elements at those
offsets in their original order, and an earlier sub-range ends no later than a later one
starts. -/
theorem partition_plan_layout {T : Type} (hw : Nat) (s : List T) :
    (partition_plan hw s).length = num_threads hw s.length ∧
    (blocks hw s).length = num_threads hw s.length ∧
    block_size hw s.length = s.length / num_threads hw s.length ∧
    (∀ i, i < num_threads hw s.length →
      (partition_plan hw s)[i]?
        = some (i * block_size hw s.length, (i + 1) * block_size hw s.length) ∧
      (∃ b, (blocks hw s)[i]? = some b ∧ b.length = block_size hw s.length ∧
        ∀ k, k < block_size hw s.length →
          b[k]? = s[i * block_size hw s.length + k]? ∧
          i * block_size hw s.length + k < s.length)) ∧
    (∀ i j, i < j → j < num_threads hw s.length →
      (i + 1) * block_size hw s.length ≤ j * block_size hw s.length) := by
  refine ⟨length_partition_plan hw s, ?_, rfl, ?_, ?_⟩
  · simp [blocks, length_partition_plan]
  · intro i hi
    refine ⟨partition_plan_getElem? hw s i hi, _, blocks_getElem? hw s i hi, ?_, ?_⟩
    · have hmem : (s.drop (i * block_size hw s.length)).take (block_size hw s.length)
          ∈ blocks hw s := List.getElem?_mem (blocks_getElem? hw s i hi)
      exact length_of_mem_blocks hw s hmem
    · intro k hk
      have hend := block_end_le hw s.length i hi
      rw [Nat.add_mul, Nat.one_mul] at hend
      refine ⟨?_, by omega⟩
      rw [List.getElem?_take, if_pos hk, List.getElem?_drop]
  · intro i j hij _
    exact Nat.mul_le_mul_right _ hij

/-- Witness for C12: the range 0..102 with hint 4; the last sub-range (index 3) is
[75, 100) and no sub-range overlaps it. -/
theorem partition_plan_layout_witness :
    (partition_plan 4 (List.range 103))[3]?
      = some (3 * block_size 4 (List.range 103).length,
          (3 + 1) * block_size 4 (List.range 103).length) ∧
    (2 + 1) * block_size 4 (List.range 103).length
      ≤ 3 * block_size 4 (List.range 103).length :=
  ⟨((partition_plan_layout 4 (List.range 103)).2.2.2.1 3 (by decide)).1,
    (partition_plan_layout 4 (List.range 103)).2.2.2.2 2 3 (by decide) (by decide)⟩

/-- C13: with integer addition, a non-empty input and a length divisible by the number
of threads, every partial result is `init` plus the sum of its block, so the call
returns the sequential fold plus `num_threads * init`; the two agree exactly when
`init = 0`. -/
theorem init_counted_once_per_block (hw : Nat) (s : List Int) (init : Int) (hne : s ≠ [])
    (hdvd : num_threads hw s.length ∣ s.length) :
    partial_results hw s init (fun a x => a + x)
      = (blocks hw s).map (fun b => init + b.sum) ∧
    parallel_accumulate hw s init (fun a x => a + x)
      = sequential_fold s init (fun a x => a + x) + num_threads hw s.length * init ∧
    (parallel_accumulate hw s init (fun a x => a + x)
        = sequential_fold s init (fun a x => a + x) ↔ init = 0) := by
  have hpos : 0 < s.length := List.length_pos.mpr hne
  have hpr : partial_results hw s init (fun a x => a + x)
      = (blocks hw s).map (fun b => init + b.sum) := by
    unfold partial_results sequential_fold accumulate block_seed
    apply List.map_congr_left
    intro b _
    exact foldl_add_int b init
  have hflat : (blocks hw s).flatten = s := by
    rw [flatten_blocks, covered_of_dvd hdvd, List.take_length]
  have hlenb : (blocks hw s).length = num_threads hw s.length := by
    simp [blocks, length_partition_plan]
  have hval : parallel_accumulate hw s init (fun a x => a + x)
      = sequential_fold s init (fun a x => a + x) + num_threads hw s.length * init := by
    rw [parallel_accumulate_of_pos hw s init _ hpos, hpr]
    unfold sequential_fold accumulate
    rw [foldl_add_int, foldl_add_int, sum_map_add_const, hflat, hlenb]
    ring
  refine ⟨hpr, hval, ?_⟩
  rw [hval]
  have hn : (1 : Int) ≤ num_threads hw s.length := by
    exact_mod_cast num_threads_pos hw hpos
  constructor
  · intro h
    have h0 : (num_threads hw s.length : Int) * init = 0 := by linarith
    rcases mul_eq_zero.mp h0 with h1 | h1
    · omega
    · exact h1
  · intro h
    rw [h]
    ring

/-- Witness for C13: 100 copies of 1 with hint 4 and initial value 3. -/
theorem init_counted_once_per_block_witness :
    (List.replicate 100 (1 : Int) ≠ [] ∧
      num_threads 4 (List.replicate 100 (1 : Int)).length
        ∣ (List.replicate 100 (1 : Int)).length) ∧
    (partial_results 4 (List.replicate 100 (1 : Int)) 3 (fun a x => a + x)
        = (blocks 4 (List.replicate 100 (1 : Int))).map (fun b => 3 + b.sum) ∧
      parallel_accumulate 4 (List.replicate 100 (1 : Int)) 3 (fun a x => a + x)
        = sequential_fold (List.replicate 100 (1 : Int)) 3 (fun a x => a + x)
          + num_threads 4 (List.replicate 100 (1 : Int)).length * 3 ∧
      (parallel_accumulate 4 (List.replicate 100 (1 : Int)) 3 (fun a x => a + x)
          = sequential_fold (List.replicate 100 (1 : Int)) 3 (fun a x => a + x)
        ↔ (3 : Int) = 0)) :=
  ⟨⟨by decide, by decide⟩,
    init_counted_once_per_block 4 (List.replicate 100 (1 : Int)) 3 (by decide) (by decide)⟩

/-- C14: for a non-empty input the blocks, concatenated, are the input without its last
`length mod num_threads` elements: the elements in no block are exactly that many, they
are the trailing ones, and there are at most `num_threads - 1` of them. -/
theorem unassigned_is_trailing_remainder {T : Type} (hw : Nat) (s : List T)
    (hpos : 0 < s.length) :
    s = (blocks hw s).flatten ++ s.drop (s.length - s.length % num_threads hw s.length) ∧
    (blocks hw s).flatten = s.take (s.length - s.length % num_threads hw s.length) ∧
    (s.drop (s.length - s.length % num_threads hw s.length)).length
      = s.length % num_threads hw s.length ∧
    s.length - (blocks hw s).flatten.length = s.length % num_threads hw s.length ∧
    s.length % num_threads hw s.length ≤ num_threads hw s.length - 1 := by
  have hcov := covered_add_mod hw s.length
  have hn := num_threads_pos hw hpos
  have hmod := Nat.mod_lt s.length (show 0 < num_threads hw s.length by omega)
  have hflat : (blocks hw s).flatten
      = s.take (s.length - s.length % num_threads hw s.length) := by
    rw [flatten_blocks]
    congr 1
    omega
  refine ⟨?_, hflat, ?_, ?_, by omega⟩
  · rw [hflat, List.take_append_drop]
  · rw [List.length_drop]
    omega
  · rw [hflat, List.length_take]
    omega

/-- Witness for C14: the range 0..102 with hint 4 (remainder 3). -/
theorem unassigned_is_trailing_remainder_witness :
    0 < (List.range 103).length ∧
    (List.range 103 = (blocks 4 (List.range 103)).flatten
        ++ (List.range 103).drop
          ((List.range 103).length
            - (List.range 103).length % num_threads 4 (List.range 103).length) ∧
      (blocks 4 (List.range 103)).flatten
        = (List.range 103).take
          ((List.range 103).length
            - (List.range 103).length % num_threads 4 (List.range 103).length) ∧
      ((List.range 103).drop
          ((List.range 103).length
            - (List.range 103).length % num_threads 4 (List.range 103).length)).length
        = (List.range 103).length % num_threads 4 (List.range 103).length ∧
      (List.range 103).length - (blocks 4 (List.range 103)).flatten.length
        = (List.range 103).length % num_threads 4 (List.range 103).length ∧
      (List.range 103).length % num_threads 4 (List.range 103).length
        ≤ num_threads 4 (List.range 103).length - 1) :=
  ⟨by decide, unassigned_is_trailing_remainder 4 (List.range 103) (by decide)⟩

/-- C15 as stated fails: a range of length 26 with hint 0 is split between 2 threads
into blocks of 13 elements, fewer than `min_block_size` = 25. -/
theorem two_blocks_of_13_for_length_26 :
    1 < num_threads 0 (List.range 26).length ∧
    block_size 0 (List.range 26).length = 13 ∧
    (blocks 0 (List.range 26)).map List.length = [13, 13] ∧
    ¬ (∀ b ∈ blocks 0 (List.range 26), min_block_size ≤ b.length) := by
  refine ⟨by decide, by decide, by decide, by decide⟩

/-- C15 (amended): whenever more than one thread is used, the length exceeds
`25 * (num_threads - 1)`, so every block has at least 13 elements; the blocks have at
least `min_block_size` = 25 elements exactly when `25 * num_threads <= length`. -/
theorem blocks_at_least_13_when_split {T : Type} (hw : Nat) (s : List T)
    (hmany : 1 < num_threads hw s.length) :
    25 * (num_threads hw s.length - 1) < s.length ∧
    13 ≤ block_size hw s.length ∧
    (∀ b ∈ blocks hw s, 13 ≤ b.length) ∧
    (min_block_size ≤ block_size hw s.length
      ↔ min_block_size * num_threads hw s.length ≤ s.length) := by
  have hcap : num_threads hw s.length ≤ max_threads s.length := by
    unfold num_threads
    exact Nat.min_le_right _ _
  have hlen : 25 * (num_threads hw s.length - 1) < s.length := by
    unfold max_threads min_block_size at hcap
    omega
  have hbs : 13 ≤ block_size hw s.length := by
    unfold block_size
    rw [Nat.le_div_iff_mul_le (by omega)]
    omega
  refine ⟨hlen, hbs, ?_, ?_⟩
  · intro b hb
    rw [length_of_mem_blocks hw s hb]
    exact hbs
  · unfold block_size
    rw [Nat.le_div_iff_mul_le (by omega)]

/-- Witness for C15 (amended): the range 0..25 with hint 0 (2 threads, blocks of 13). -/
theorem blocks_at_least_13_when_split_witness :
    1 < num_threads 0 (List.range 26).length ∧
    (25 * (num_threads 0 (List.range 26).length - 1) < (List.range 26).length ∧
      13 ≤ block_size 0 (List.range 26).length ∧
      (∀ b ∈ blocks 0 (List.range 26), 13 ≤ b.length) ∧
      (min_block_size ≤ block_size 0 (List.range 26).length
        ↔ min_block_size * num_threads 0 (List.range 26).length
            ≤ (List.range 26).length)) :=
  ⟨by decide, blocks_at_least_13_when_split 0 (List.range 26) (by decide)⟩

/-- C16 as stated fails: with `func(p, q) = 10 * p + q`, folding the one-element
sub-range [1] from seed 5 yields `func(5, 1)` = 51, not `func(1, 5)` = 15. -/
theorem block_fold_passes_seed_first :
    sequential_fold [1] 5 (fun p q => 10 * p + q) = 51 ∧
    (fun p q => 10 * p + q) 1 5 = 15 ∧
    sequential_fold [1] 5 (fun p q => 10 * p + q) ≠ (fun p q => 10 * p + q) 1 5 := by
  refine ⟨by decide, by decide, by decide⟩

/-- C16 (amended): the block fold applies `func` with the current accumulator as its
first argument and the element as its second: folding the one-element sub-range [x]
from seed `a` yields `func(a, x)`, and folding a sub-range extended by one element `x`
yields `func(r, x)` where `r` is the fold of the sub-range. -/
theorem block_fold_argument_order {T : Type} (func : T → T → T) (a x : T) (s : List T) :
    sequential_fold [x] a func = func a x ∧
    sequential_fold (s ++ [x]) a func = func (sequential_fold s a func) x := by
  refine ⟨rfl, ?_⟩
  unfold sequential_fold accumulate
  rw [List.foldl_append]
  rfl

/-- C17: for a non-empty sequence, a hint for which the number of threads divides the
length, an associative `func` and an `init` with `func(init, x) = x` for every `x`, the
call returns the sequential left fold of the whole sequence; `func` need not be
commutative. -/
theorem equals_sequential_fold_when_divisible {T : Type} (hw : Nat) (s : List T) (init : T)
    (func : T → T → T) (hne : s ≠ [])
    (hdvd : num_threads hw s.length ∣ s.length)
    (hassoc : ∀ a b c, func (func a b) c = func a (func b c))
    (hid : ∀ x, func init x = x) :
    parallel_accumulate hw s init func = sequential_fold s init func := by
  have hpos : 0 < s.length := List.length_pos.mpr hne
  have hbpos := block_size_pos hw hpos
  have hflat : (blocks hw s).flatten = s := by
    rw [flatten_blocks, covered_of_dvd hdvd, List.take_length]
  have hblocks : ∀ b ∈ blocks hw s, b ≠ [] := by
    intro b hb h
    have hl := length_of_mem_blocks hw s hb
    rw [h, List.length_nil] at hl
    omega
  rw [parallel_accumulate_of_pos hw s init func hpos]
  unfold partial_results sequential_fold accumulate block_seed
  rw [foldl_block_folds func init hassoc hid (blocks hw s) hblocks init, hflat]

/-- Witness for C17: 26 one-element lists with list concatenation (associative, not
commutative, the empty list a left identity) and hint 0: 2 threads, blocks of 13. -/
theorem equals_sequential_fold_when_divisible_witness :
    ((List.range 26).map (fun i => [i]) ≠ [] ∧
      num_threads 0 ((List.range 26).map (fun i => [i])).length
        ∣ ((List.range 26).map (fun i => [i])).length ∧
      [1] ++ [2] ≠ [2] ++ [1]) ∧
    parallel_accumulate 0 ((List.range 26).map (fun i => [i])) [] (fun a x => a ++ x)
      = sequential_fold ((List.range 26).map (fun i => [i])) [] (fun a x => a ++ x) :=
  ⟨⟨by decide, by decide, by decide⟩,
    equals_sequential_fold_when_divisible 0 ((List.range 26).map (fun i => [i])) []
      (fun a x => a ++ x) (by decide) (by decide)
      (fun a b c => List.append_assoc a b c) (fun x => List.nil_append x)⟩

/-- C18: two sequences of the same length that agree on their first
`num_threads * block_size` elements are split into the same blocks and give the same
result, for every hint, `init` and `func`: the trailing `length mod num_threads`
elements are never read. -/
theorem result_ignores_trailing_remainder {T : Type} (hw : Nat) (s1 s2 : List T) (init : T)
    (func : T → T → T) (hlen : s1.length = s2.length)
    (hagree : s1.take (num_threads hw s1.length * block_size hw s1.length)
      = s2.take (num_threads hw s1.length * block_size hw s1.length)) :
    blocks hw s1 = blocks hw s2 ∧
    parallel_accumulate hw s1 init func = parallel_accumulate hw s2 init func := by
  have hb := blocks_eq_of_take_eq hw s1 s2 hlen hagree
  refine ⟨hb, ?_⟩
  unfold parallel_accumulate partial_results distance
  rw [hb, hlen]

/-- Witness for C18: 0..102 and 0..99 followed by 7, 8, 9, with hint 4, initial value 0
and addition. -/
theorem result_ignores_trailing_remainder_witness :
    ((List.range 103).length = (List.range 100 ++ [7, 8, 9]).length ∧
      (List.range 103).take
          (num_threads 4 (List.range 103).length * block_size 4 (List.range 103).length)
        = (List.range 100 ++ [7, 8, 9]).take
          (num_threads 4 (List.range 103).length * block_size 4 (List.range 103).length) ∧
      List.range 103 ≠ List.range 100 ++ [7, 8, 9]) ∧
    (blocks 4 (List.range 103) = blocks 4 (List.range 100 ++ [7, 8, 9]) ∧
      parallel_accumulate 4 (List.range 103) 0 (fun a x => a + x)
        = parallel_accumulate 4 (List.range 100 ++ [7, 8, 9]) 0 (fun a x => a + x)) :=
  ⟨⟨by decide, by decide, by decide⟩,
    result_ignores_trailing_remainder 4 (List.range 103) (List.range 100 ++ [7, 8, 9]) 0
      (fun a x => a + x) (by decide) (by decide)⟩

/-- C19: for a non-empty input, every block index `i < num_threads` has
`(i + 1) * block_size <= length`, and every launched sub-range `[it, it + block_size)`
lies inside `[first, last)`: its end is at most `length` and all of its `block_size`
elements exist. -/
theorem blocks_within_range {T : Type} (hw : Nat) (s : List T) (hpos : 0 < s.length) :
    (∀ i, i < num_threads hw s.length → (i + 1) * block_size hw s.length ≤ s.length) ∧
    (∀ r ∈ partition_plan hw s,
      r.2 = r.1 + block_size hw s.length ∧ r.2 ≤ s.length ∧
      (slice s r.1 r.2).length = block_size hw s.length) := by
  refine ⟨fun i hi => block_end_le hw s.length i hi, ?_⟩
  intro r hr
  have hmem : slice s r.1 r.2 ∈ blocks hw s := List.mem_map.mpr ⟨r, hr, rfl⟩
  rw [partition_plan_of_pos hw s hpos] at hr
  obtain ⟨i, hi, rfl⟩ := mem_launch_ranges hr
  have hend := block_end_le hw s.length i hi
  refine ⟨?_, by simpa using hend, length_of_mem_blocks hw s hmem⟩
  simp only [Nat.zero_add]
  ring

/-- Witness for C19: the range 0..102 with hint 4. -/
theorem blocks_within_range_witness :
    0 < (List.range 103).length ∧
    ((∀ i, i < num_threads 4 (List.range 103).length →
        (i + 1) * block_size 4 (List.range 103).length ≤ (List.range 103).length) ∧
      (∀ r ∈ partition_plan 4 (List.range 103),
        r.2 = r.1 + block_size 4 (List.range 103).length ∧
        r.2 ≤ (List.range 103).length ∧
        (slice (List.range 103) r.1 r.2).length
          = block_size 4 (List.range 103).length)) :=
  ⟨by decide, blocks_within_range 4 (List.range 103) (by decide)⟩

/-- C20: for every length of at least 1 and every hint, the number of threads is at most
the length, so `block_size = length / num_threads` is at least 1 and no launched block
is empty. -/
theorem no_empty_block {T : Type} (hw : Nat) (s : List T) (hpos : 1 ≤ s.length) :
    num_threads hw s.length ≤ s.length ∧
    1 ≤ block_size hw s.length ∧
    (∀ b ∈ blocks hw s, b ≠ []) := by
  have hbs := block_size_pos hw hpos
  refine ⟨num_threads_le_length hw hpos, hbs, ?_⟩
  intro b hb h
  have hl := length_of_mem_blocks hw s hb
  rw [h, List.length_nil] at hl
  omega

/-- Witness for C20: a one-element range with hint 64. -/
theorem no_empty_block_witness :
    1 ≤ [7].length ∧
    (num_threads 64 [7].length ≤ [7].length ∧
      1 ≤ block_size 64 [7].length ∧
      (∀ b ∈ blocks 64 [7], b ≠ [])) :=
  ⟨by decide, no_empty_block 64 [7] (by decide)⟩

end ParallelAccumulate
